import Mathlib

/-
Verification development for the emergent-behavior simulator's core:
the gene/genome codec, the genome-to-brain-graph compiler with pruning,
and the recursive brain evaluator.

Shallow embedding conventions:
* a Rust `u8` gene is modelled as a `Nat` (theorems about "all byte values"
  quantify over `Fin 256`);
* `f32` weights and biases are modelled as exact rationals `ℚ`; every claim
  proved below only concerns signs, structure, termination or values produced
  by exactly-representable operations, so no rounding behaviour is relevant;
* fallible Rust functions returning `Result`/panicking are modelled with
  `Option`;
* the recursive evaluator threads its `&mut Vec` history explicitly and is
  given explicit fuel (the theorems show the fuel used by the embedding is
  always sufficient, which is the termination claim);
* `petgraph` node handles are modelled as positions in a dense node list;
  edges are a list of `(src, tgt, inverted)` records.  Neighbor iteration
  order is modelled as edge-list order; the properties proved below are
  insensitive to that order.
-/

namespace Emergent

/-- Model of `SenseType` from src/agent/gene.rs, variant order fixed. -/
inductive SenseType
  | Blocked | Agent | AgentDensity | Food | FoodDensity | Direction
  deriving DecidableEq

/-- Model of `ActionType` from src/agent/gene.rs, variant order fixed. -/
inductive ActionType
  | Move | TurnLeft | TurnRight | Kill | ProduceFood
  deriving DecidableEq

/-- The fixed enumeration order of `SenseType`, as `SenseType::iter()` yields it. -/
def senseVariants : List SenseType :=
  [.Blocked, .Agent, .AgentDensity, .Food, .FoodDensity, .Direction]

/-- The fixed enumeration order of `ActionType`, as `ActionType::iter()` yields it. -/
def actionVariants : List ActionType :=
  [.Move, .TurnLeft, .TurnRight, .Kill, .ProduceFood]

/-- Model of `SenseType::iter().nth(k).unwrap()` (callers always pass `k` in range). -/
def SenseType.ofIdx (k : Nat) : SenseType := senseVariants.getD k .Blocked

/-- Model of `ActionType::iter().nth(k).unwrap()` (callers always pass `k` in range). -/
def ActionType.ofIdx (k : Nat) : ActionType := actionVariants.getD k .Move

/-- Model of `GeneParse` from src/agent/gene.rs. -/
inductive GeneParse
  | Sense (v : SenseType)
  | Action (v : ActionType)
  | Internal (bias : ℚ)
  | Connection (idx : Nat) (inverted : Bool)
  deriving DecidableEq

/-- Model of `Gene::get_bit`: `data & (1 << index) != 0`. -/
def getBit (data i : Nat) : Bool := data / 2 ^ i % 2 = 1

/-- Model of `Gene::get_ls_bits`: accumulate the low `bits` bits
(`1u8.rotate_left(i)` is `2 ^ i` for the bit counts used here). -/
def getLsBits (data bits : Nat) : Nat :=
  (List.range bits).foldl (fun d i => if getBit data i then d + 2 ^ i else d) 0

/-- Model of `Gene::get_bit_range`: shift right by `lo`, then keep `hi - lo` bits. -/
def getBitRange (data lo hi : Nat) : Nat := getLsBits (data / 2 ^ lo) (hi - lo)

/-- Model of `Gene::parse` from src/agent/gene.rs. -/
def Gene.parse (b : Nat) : GeneParse :=
  if getBit b 7 then
    .Connection (getBitRange b 0 6) (getBit b 6)
  else if getBit b 6 then
    .Internal ((getBitRange b 0 6 : ℚ) / 32)
  else
    let index := getBitRange b 0 5
    if getBit b 5 then
      .Action (ActionType.ofIdx (index % actionVariants.length))
    else
      .Sense (SenseType.ofIdx (index % senseVariants.length))

/-- Model of `impl fmt::Display for Gene`: `\x7b:08b\x7d`, most significant bit first
(exact for byte values, which is all the round-trip claim quantifies over). -/
def Gene.toBin (b : Nat) : List Char :=
  (List.range 8).map (fun k => if getBit b (7 - k) then '1' else '0')

/-- Note that `u8::from_str_radix` accepts an optional leading `+` sign. -/
def stripPlus : List Char → List Char
  | '+' :: rest => rest
  | s => s

/-- A single radix-2 digit, as `char::to_digit(2)` accepts it. -/
def binDigit (c : Char) : Option Nat :=
  if c = '0' then some 0 else if c = '1' then some 1 else none

/-- The digit-accumulation loop of `u8::from_str_radix(_, 2)`. -/
def binValAux (acc : Nat) : List Char → Option Nat
  | [] => some acc
  | c :: rest =>
    match binDigit c with
    | some d => binValAux (acc * 2 + d) rest
    | none => none

/-- Model of `Gene::from_string` (src/agent/gene.rs): `u8::from_str_radix(data, 2)`,
erring on an empty digit string, a non-binary digit, or a value that does
not fit in eight bits.  (Rust checks overflow digit-by-digit; erring on the
final value is the same function into `Option`.) -/
def Gene.fromString (s : List Char) : Option Nat :=
  match stripPlus s with
  | [] => none
  | t =>
    match binValAux 0 t with
    | some v => if v < 256 then some v else none
    | none => none

/-- The loop body of `Genome::from_string`:
`if let Ok(gene) = Gene::from_string(g) { genome.push(gene) }` —
a failing token leaves the genome unchanged. -/
def pushGene (genome : List Nat) (g : List Char) : List Nat :=
  match Gene.fromString g with
  | some gene => genome ++ [gene]
  | none => genome

/-- Model of `Genome::from_string` (src/agent/gene.rs): split on a space and push
only the genes that parse. -/
def Genome.fromString (data : List Char) : List Nat :=
  (data.splitOn ' ').foldl pushGene []

/-- The structural branch of `Genome::mutate` (src/agent/gene.rs): append a
fresh random gene, or remove the gene at a random position.  The random
draws are explicit arguments; `remove` on an empty genome is
`thread_rng().gen_range(0..0)`, which panics — modelled as `none`. -/
def Genome.mutateStructural (genome : List Nat) (addNew : Bool) (fresh idx : Nat) :
    Option (List Nat) :=
  if addNew then some (genome ++ [fresh])
  else if genome.length = 0 then none
  else some (genome.eraseIdx (idx % genome.length))

/-- Model of `Node` from src/agent/mod.rs. -/
inductive Node
  | Sense (v : SenseType)
  | Action (v : ActionType)
  | Internal (bias : ℚ)
  deriving DecidableEq

/-- Discriminator for `Node::Sense`. -/
def Node.isSense : Node → Bool
  | .Sense _ => true
  | _ => false

/-- Discriminator for `Node::Action`. -/
def Node.isAct : Node → Bool
  | .Action _ => true
  | _ => false

/-- A directed `petgraph` edge with its `bool` weight (the inversion flag). -/
structure Edge where
  src : Nat
  tgt : Nat
  inv : Bool
  deriving DecidableEq

/-- Indexing the dense node list (`brain[index]`); callers only use valid
indices, the default is a modelling artifact. -/
def nodeAtL (nodes : List Node) (i : Nat) : Node := nodes.getD i (.Internal 0)

/-- The sources of the edges into `i`
(`neighbors_directed(i, Direction::Incoming)`). -/
def inNbrs (es : List Edge) (i : Nat) : List Nat :=
  (es.filter (fun e => e.tgt == i)).map (fun e => e.src)

/-- Incoming edge count of node `i`. -/
def inDeg (es : List Edge) (i : Nat) : Nat := (es.filter (fun e => e.tgt == i)).length

/-- Outgoing edge count of node `i`. -/
def outDeg (es : List Edge) (i : Nat) : Nat := (es.filter (fun e => e.src == i)).length

/-- The brain graph owned by an `Agent`.  `nodes` is the full list created
from the genome (position = creation index); `alive` lists the node indices
that survive pruning, and `edges` the surviving edges.  (petgraph compacts
indices on `retain_nodes`; keeping original indices is the same graph up to
renaming and preserves provenance of each node.) -/
structure Brain where
  nodes : List Node
  edges : List Edge
  alive : List Nat
  deriving DecidableEq

/-- The node-creation pass of `Agent::new`: one node per non-Connection
gene, in genome order. -/
def parsedNodes (genome : List Nat) : List Node :=
  genome.filterMap (fun g =>
    match Gene.parse g with
    | .Sense v => some (.Sense v)
    | .Action v => some (.Action v)
    | .Internal b => some (.Internal b)
    | .Connection _ _ => none)

/-- The connection side-list of `Agent::new`, in genome order. -/
def parsedConns (genome : List Nat) : List (Nat × Bool) :=
  genome.filterMap (fun g =>
    match Gene.parse g with
    | .Connection i inv => some (i, inv)
    | _ => none)

/-- The wiring loop of `Agent::new`: pair the connection list two at a time;
pair `(a, b)` adds an edge `a.idx % node_count → b.idx % node_count`
carrying `a.inverted`.  A trailing unpaired connection is dropped.  (The
caller has already ruled out `node_count = 0` whenever a pair exists.) -/
def rawEdges (conns : List (Nat × Bool)) (n : Nat) : List Edge :=
  (List.range (conns.length / 2)).map (fun i =>
    let a := conns.getD (2 * i) (0, false)
    let b := conns.getD (2 * i + 1) (0, false)
    ⟨a.1 % n, b.1 % n, a.2⟩)

/-- The recursive `Agent::prune` walk (src/agent/mod.rs): push the index,
then recurse into each incoming neighbor not yet processed.  Fuel makes the
recursion structural; `nodes.length + 1` fuel is always enough (each nested
call pushes a previously unseen index). -/
def pruneWalk (es : List Edge) : Nat → Nat → List Nat → List Nat
  | 0, _, proc => proc
  | fuel + 1, i, proc =>
    (inNbrs es i).foldl
      (fun pr t => if t ∈ pr then pr else pruneWalk es fuel t pr)
      (proc ++ [i])

/-- The retain-set accumulation of `Agent::new`: run the prune walk from
every Action node, sharing one `processed` vector. -/
def retainOf (es : List Edge) (acts : List Nat) (fuel : Nat) : List Nat :=
  acts.foldl (fun pr a => pruneWalk es fuel a pr) []

/-- The edge-pruning pass of `Agent::new`: delete every incoming edge of a
Sense node and every outgoing edge of an Action node (removal per node index
is order-independent, so it is one filter over the wired edges). -/
def prunedEdges (genome : List Nat) : List Edge :=
  (rawEdges (parsedConns genome) (parsedNodes genome).length).filter (fun e =>
    !(nodeAtL (parsedNodes genome) e.tgt).isSense &&
      !(nodeAtL (parsedNodes genome) e.src).isAct)

/-- The Action node indices, in `node_indices()` order. -/
def actionIdxs (genome : List Nat) : List Nat :=
  (List.range (parsedNodes genome).length).filter
    (fun i => (nodeAtL (parsedNodes genome) i).isAct)

/-- The shared `retain` vector after `Agent::new` has run `prune` from every
Action node. -/
def retainSet (genome : List Nat) : List Nat :=
  retainOf (prunedEdges genome) (actionIdxs genome) ((parsedNodes genome).length + 1)

/-- The `retain_nodes` predicate of `Agent::new`: keep a node when the prune
walks reached it, and additionally require an incoming edge for Action
nodes.  (The incoming count is taken over the edge-pruned graph: the incoming
neighbors of a retained Action node are retained non-Action nodes, so none of
them is deleted during `retain_nodes` and the mid-iteration count agrees —
proved below as part of the pruning invariant.) -/
def aliveIdxs (genome : List Nat) : List Nat :=
  (List.range (parsedNodes genome).length).filter (fun i =>
    decide (i ∈ retainSet genome) &&
      (!(nodeAtL (parsedNodes genome) i).isAct || inDeg (prunedEdges genome) i != 0))

/-- The edges that survive `retain_nodes` (an edge survives iff both its
endpoints do). -/
def finalEdges (genome : List Nat) : List Edge :=
  (prunedEdges genome).filter (fun e =>
    decide (e.src ∈ aliveIdxs genome) && decide (e.tgt ∈ aliveIdxs genome))

/-- Model of `Agent::new` (src/agent/mod.rs): decode nodes and connections, wire the
edge pairs (failing when a pair exists but no node does), delete incoming
edges of Sense nodes and outgoing edges of Action nodes, then retain only
nodes backward-reachable from an Action node, dropping Action nodes with no
incoming edge. -/
def build (genome : List Nat) : Option Brain :=
  if (parsedNodes genome).length = 0 ∧ 2 ≤ (parsedConns genome).length then none
  else some ⟨parsedNodes genome, finalEdges genome, aliveIdxs genome⟩

/-- Model of `t *= if b \x7b 1f32 \x7d else \x7b -1f32 \x7d` — how `process_node` applies the
looked-up edge's inversion flag to a neighbor's contribution (`none` when no
edge connects the node to its parent). -/
def applyInv (edge : Option Bool) (t : ℚ) : ℚ :=
  match edge with
  | some b => if b then t else -t
  | none => t

/-- One step of the `(count, sum)` fold over incoming neighbors: a defined
contribution is flag-adjusted and accumulated, an undefined one is skipped;
either way the threaded history advances to the recursive call's state. -/
def combine (edge : Option Bool) (st : Nat × ℚ × List Nat)
    (pr : Option ℚ × List Nat) : Nat × ℚ × List Nat :=
  match pr.1 with
  | some t => (st.1 + 1, st.2.1 + applyInv edge t, pr.2)
  | none => (st.1, st.2.1, pr.2)

/-- The incoming-neighbor fold of `process_node`, abstracted over the
recursive resolver `f` (which receives the threaded history). -/
def foldNbrs (nbrs : List Nat) (edge : Option Bool)
    (f : Nat → List Nat → Option (Option ℚ × List Nat))
    (init : Nat × ℚ × List Nat) : Option (Nat × ℚ × List Nat) :=
  nbrs.foldlM (fun st r => (f r st.2.2).map (combine edge st)) init

/-- Model of `Agent::process_node` (src/agent/mod.rs), fuelled.  Result `none` means
the fuel ran out (shown impossible below with fuel `nodes.length + 1`);
`some (res, hist)` is Rust's return value paired with the final state of the
`&mut Vec` history, which the caller's fold keeps threading.

Source structure mirrored:
* a Sense node returns `sense.get(variant)` before any history check
  relevant to it (the first guard only matches Internal nodes);
* a revisited Internal node returns its bias: via the first guard when it
  has no incoming edges, and via the second `history.contains` check
  otherwise — both sites return the same bias, merged into one branch here;
* a revisited Action node returns `None`;
* otherwise the flag of the edge from `index` to the most recently visited
  node (`find_edge(index, t)` for `t = history.last()`) is looked up, the
  index is pushed, and the incoming neighbors are folded into
  `(count, sum)` by `foldNbrs`/`combine`;
* zero defined contributions yield the bias for an Internal node and `None`
  for an Action node; otherwise the result is `sum / count * bias`. -/
def processNodeF (br : Brain) (sense : SenseType → ℚ) :
    Nat → Nat → List Nat → Option (Option ℚ × List Nat)
  | 0, _, _ => none
  | fuel + 1, i, hist =>
    match nodeAtL br.nodes i with
    | .Sense v => some (some (sense v), hist)
    | n =>
      let bias : ℚ := match n with | .Internal b => b | _ => 1
      let isInt : Bool := match n with | .Internal _ => true | _ => false
      if i ∈ hist then some (if isInt then some bias else none, hist)
      else
        let edge : Option Bool := hist.getLast?.bind (fun t =>
          (br.edges.find? (fun e => e.src == i && e.tgt == t)).map (fun e => e.inv))
        match foldNbrs (inNbrs br.edges i) edge
          (fun r h => processNodeF br sense fuel r h) (0, (0 : ℚ), hist ++ [i]) with
        | none => none
        | some (0, _, h2) => some (if isInt then some bias else none, h2)
        | some (c + 1, sum, h2) => some (some (sum / (c + 1 : ℚ) * bias), h2)

/-- Model of `Agent::process` (src/agent/mod.rs), fuelled like `processNodeF`: walk
the nodes with no outgoing edge, resolve each Action node among them with a
fresh history, and keep the highest weight (first seen wins ties).  The
outer `Option` is fuel exhaustion; the inner value is the dominant
`(ActionType, weight)` candidate. -/
def evaluateT (br : Brain) (sense : SenseType → ℚ) :
    Option (Option (ActionType × ℚ)) :=
  br.alive.foldlM
    (fun dom i =>
      if outDeg br.edges i = 0 then
        match nodeAtL br.nodes i with
        | .Action v =>
          (processNodeF br sense (br.nodes.length + 1) i []).map (fun pr =>
            match pr.1 with
            | some w =>
              match dom with
              | some (hv, hw) => if w > hw then some (v, w) else some (hv, hw)
              | none => some (v, w)
            | none => dom)
        | _ => some dom
      else some dom)
    none

/-- Model of `agent.process(sense)`, the observable result: the dominant action type. -/
def process (br : Brain) (sense : SenseType → ℚ) : Option ActionType :=
  match evaluateT br sense with
  | some (some (v, _)) => some v
  | _ => none

/-- Discriminator for the Connection gene variant. -/
def GeneParse.isConn : GeneParse → Bool
  | .Connection _ _ => true
  | _ => false

/-- The bit layout exactly as the specification words it, in plain modular
arithmetic: bit 7 selects Connection (6-bit index from bits 0–5, inversion
flag from bit 6); else bit 6 selects Internal with bias `(bits 0–5) / 32`;
else bit 5 selects Action over Sense, with bits 0–4 indexed modulo the
variant count.  Compared against `Gene.parse` for refinement. -/
def specGeneDecode (b : Nat) : GeneParse :=
  if b / 2 ^ 7 % 2 = 1 then
    .Connection (b % 64) (decide (b / 2 ^ 6 % 2 = 1))
  else if b / 2 ^ 6 % 2 = 1 then
    .Internal (((b % 64 : Nat) : ℚ) / 32)
  else if b / 2 ^ 5 % 2 = 1 then
    .Action (ActionType.ofIdx (b % 32 % 5))
  else
    .Sense (SenseType.ofIdx (b % 32 % 6))

/-- The numeric value of a binary digit string (non-digits count as 0; only
applied under an all-binary hypothesis). -/
def specBinVal (s : List Char) : Nat :=
  s.foldl (fun a c => a * 2 + (if c = '1' then 1 else 0)) 0

/-- The inputs `u8::from_str_radix(_, 2)` accepts: after stripping an
optional `+`, a nonempty string of binary digits whose value fits in a byte
(note: no length-8 requirement). -/
def ValidBin (s : List Char) : Prop :=
  stripPlus s ≠ [] ∧ (∀ c ∈ stripPlus s, c = '0' ∨ c = '1') ∧
    specBinVal (stripPlus s) < 256

/-- A constant sense-lookup returning 1 for every sense kind. -/
def senseOne : SenseType → ℚ := fun _ => 1

/-- Genome `00000001 01100000 00100000 10000000 10000001 10000001 10000010`:
Sense(Agent) → Internal(bias 1) → Action(Move), the Internal→Action edge
carrying inverted = false. -/
def gC1False : List Nat := [1, 96, 32, 128, 129, 129, 130]

/-- Same chain but the Internal→Action edge carries inverted = true
(`11000001` instead of `10000001` as the third connection gene). -/
def gC1True : List Nat := [1, 96, 32, 128, 129, 193, 130]

/-- The brain built from `gC1False`. -/
def brC1False : Brain :=
  ⟨[.Sense .Agent, .Internal 1, .Action .Move],
   [⟨0, 1, false⟩, ⟨1, 2, false⟩], [0, 1, 2]⟩

/-- The brain built from `gC1True`. -/
def brC1True : Brain :=
  ⟨[.Sense .Agent, .Internal 1, .Action .Move],
   [⟨0, 1, false⟩, ⟨1, 2, true⟩], [0, 1, 2]⟩

/-- Genome `00000001 00100000 10000000 10000001`: one Sense, one Action, one
edge between them. -/
def gC2 : List Nat := [1, 32, 128, 129]

/-- The brain built from `gC2`. -/
def brC2 : Brain := ⟨[.Sense .Agent, .Action .Move], [⟨0, 1, false⟩], [0, 1]⟩

/-- Genome `01100000 00100000 10000000 10000000 10000000 10000001`: an
Internal node with a self-loop feeding an Action node. -/
def gC3 : List Nat := [96, 32, 128, 128, 128, 129]

/-- The brain built from `gC3` (the self-loop survives pruning). -/
def brC3 : Brain :=
  ⟨[.Internal 1, .Action .Move], [⟨0, 0, false⟩, ⟨0, 1, false⟩], [0, 1]⟩

/-- The end-to-end scenario genome quoted by the specification:
`01000001 11100000 10000000 10000001`. -/
def gC5 : List Nat := [65, 224, 128, 129]

/-- What actually gets built from `gC5`: a single Internal node that is
pruned away, leaving an empty graph. -/
def brC5 : Brain := ⟨[.Internal (1 / 32)], [], []⟩

/-- A genome with 65 non-Connection genes (Sense at 0, Action at 1, then 63
more Sense genes) and one connection pair wiring node 0 to node 1. -/
def gC10 : List Nat := 0 :: 32 :: (List.replicate 63 0 ++ [128, 129])

/-- The brain built from `gC10`: only nodes 0 and 1 survive. -/
def brC10 : Brain :=
  ⟨.Sense .Blocked :: .Action .Move :: List.replicate 63 (.Sense .Blocked),
   [⟨0, 1, false⟩], [0, 1]⟩

/-- The number of node indices below `N` that a processed list has not yet
seen; the measure showing the prune/evaluation fuel suffices. -/
def deficit (N : Nat) (proc : List Nat) : Nat :=
  ((List.range N).filter (fun x => !decide (x ∈ proc))).length

/-- Well-formedness petgraph guarantees: edge endpoints and alive indices
are valid node handles. -/
def WFBrain (br : Brain) : Prop :=
  (∀ e ∈ br.edges, e.src < br.nodes.length ∧ e.tgt < br.nodes.length) ∧
  (∀ i ∈ br.alive, i < br.nodes.length)

instance (br : Brain) : Decidable (WFBrain br) := by
  unfold WFBrain
  infer_instance

/-- Backward reachability along incoming edges: `ReachBack es a x` holds when
there is a directed path from `x` to `a` in `es` — exactly the nodes the
recursive `prune` walk starting at `a` can visit. -/
inductive ReachBack (es : List Edge) (a : Nat) : Nat → Prop
  | refl : ReachBack es a a
  | step {x y : Nat} {b : Bool} :
      ReachBack es a x → (⟨y, x, b⟩ : Edge) ∈ es → ReachBack es a y

theorem ReachBack.trans {es : List Edge} {a b c : Nat}
    (h1 : ReachBack es a b) (h2 : ReachBack es b c) : ReachBack es a c := by
  induction h2 with
  | refl => exact h1
  | step _ he ih => exact ReachBack.step ih he

theorem mem_inNbrs {es : List Edge} {i t : Nat} :
    t ∈ inNbrs es i ↔ ∃ b : Bool, (⟨t, i, b⟩ : Edge) ∈ es := by
  constructor
  · intro h
    rcases List.mem_map.1 h with ⟨e, he, hsrc⟩
    rcases List.mem_filter.1 he with ⟨hes, htgt⟩
    refine ⟨e.inv, ?_⟩
    have : e = ⟨t, i, e.inv⟩ := by
      cases e with
      | mk s g v =>
        simp only at hsrc
        simp only [beq_iff_eq] at htgt
        simp [hsrc, htgt]
    rw [← this]
    exact hes
  · rintro ⟨b, hb⟩
    refine List.mem_map.2 ⟨⟨t, i, b⟩, ?_, rfl⟩
    exact List.mem_filter.2 ⟨hb, by simp⟩

theorem inDeg_ne_zero_iff {es : List Edge} {i : Nat} :
    inDeg es i ≠ 0 ↔ ∃ e, e ∈ es ∧ e.tgt = i := by
  unfold inDeg
  rw [Ne, List.length_eq_zero, List.filter_eq_nil_iff]
  push_neg
  simp only [beq_iff_eq]

theorem outDeg_ne_zero_iff {es : List Edge} {i : Nat} :
    outDeg es i ≠ 0 ↔ ∃ e, e ∈ es ∧ e.src = i := by
  unfold outDeg
  rw [Ne, List.length_eq_zero, List.filter_eq_nil_iff]
  push_neg
  simp only [beq_iff_eq]

theorem deficit_le (N : Nat) (proc : List Nat) : deficit N proc ≤ N := by
  calc ((List.range N).filter (fun x => !decide (x ∈ proc))).length
      ≤ (List.range N).length := List.length_filter_le _ _
    _ = N := List.length_range N

theorem deficit_anti {A B : List Nat} (N : Nat) (h : ∀ x, x ∈ A → x ∈ B) :
    deficit N B ≤ deficit N A := by
  unfold deficit
  rw [← List.countP_eq_length_filter, ← List.countP_eq_length_filter]
  refine List.countP_mono_left ?_
  intro x _ hx
  simp only [Bool.not_eq_true', decide_eq_false_iff_not] at hx ⊢
  intro hxa
  exact hx (h x hxa)

theorem deficit_pos {N t : Nat} {proc : List Nat} (ht : t < N) (hnt : t ∉ proc) :
    1 ≤ deficit N proc := by
  have : t ∈ (List.range N).filter (fun x => !decide (x ∈ proc)) :=
    List.mem_filter.2 ⟨List.mem_range.2 ht, by simp [hnt]⟩
  have := List.length_pos.2 (List.ne_nil_of_mem this)
  exact this

theorem countP_notMem_push {t : Nat} {proc : List Nat} :
    ∀ l : List Nat, l.Nodup → t ∈ l → t ∉ proc →
      l.countP (fun x => !decide (x ∈ proc ++ [t])) + 1 =
        l.countP (fun x => !decide (x ∈ proc)) := by
  intro l
  induction l with
  | nil => intro _ h; cases h
  | cons a l ih =>
    intro hnd hmem hnp
    have hal : a ∉ l := (List.nodup_cons.1 hnd).1
    have hl : l.Nodup := (List.nodup_cons.1 hnd).2
    rw [List.countP_cons, List.countP_cons]
    by_cases hat : a = t
    · subst hat
      have hcongr : l.countP (fun x => !decide (x ∈ proc ++ [a])) =
          l.countP (fun x => !decide (x ∈ proc)) := by
        refine List.countP_congr ?_
        intro x hx
        have hxa : x ≠ a := fun h => hal (h ▸ hx)
        simp [List.mem_append, hxa]
      have e1 : (if (!decide (a ∈ proc ++ [a])) = true then 1 else 0) = 0 := by simp
      have e2 : (if (!decide (a ∈ proc)) = true then 1 else 0) = 1 := by simp [hnp]
      rw [e1, e2, hcongr]
    · have hmem' : t ∈ l := by
        rcases List.mem_cons.1 hmem with h | h
        · exact absurd h.symm hat
        · exact h
      have hih := ih hl hmem' hnp
      have e3 : (if (!decide (a ∈ proc ++ [t])) = true then 1 else 0) =
          (if (!decide (a ∈ proc)) = true then 1 else 0) := by
        by_cases hap : a ∈ proc <;> simp [List.mem_append, hap, hat]
      rw [e3]
      omega

theorem deficit_push {N t : Nat} {proc : List Nat} (ht : t < N) (hnt : t ∉ proc) :
    deficit N (proc ++ [t]) + 1 = deficit N proc := by
  unfold deficit
  rw [← List.countP_eq_length_filter, ← List.countP_eq_length_filter]
  exact countP_notMem_push (List.range N) (List.nodup_range N) (List.mem_range.2 ht) hnt

theorem foldl_walk_subset (es : List Edge) (fuel : Nat)
    (H : ∀ t pr, pr ⊆ pruneWalk es fuel t pr) :
    ∀ (l : List Nat) (pr : List Nat),
      pr ⊆ l.foldl (fun pr t => if t ∈ pr then pr else pruneWalk es fuel t pr) pr := by
  intro l
  induction l with
  | nil => intro pr; simp
  | cons t l ih =>
    intro pr
    rw [List.foldl_cons]
    refine List.Subset.trans ?_ (ih _)
    by_cases h : t ∈ pr
    · simp [h]
    · simpa [h] using H t pr

theorem pruneWalk_mono (es : List Edge) :
    ∀ fuel i proc, proc ⊆ pruneWalk es fuel i proc := by
  intro fuel
  induction fuel with
  | zero => intro i proc; simp [pruneWalk]
  | succ fuel ih =>
    intro i proc
    show proc ⊆ (inNbrs es i).foldl _ (proc ++ [i])
    exact List.Subset.trans (List.subset_append_left proc [i])
      (foldl_walk_subset es fuel (fun t pr => ih t pr) (inNbrs es i) (proc ++ [i]))

theorem pruneWalk_self (es : List Edge) (fuel i : Nat) (proc : List Nat) :
    i ∈ pruneWalk es (fuel + 1) i proc := by
  show i ∈ (inNbrs es i).foldl _ (proc ++ [i])
  refine foldl_walk_subset es fuel (fun t pr => pruneWalk_mono es fuel t pr)
    (inNbrs es i) (proc ++ [i]) ?_
  simp

theorem pruneWalk_sound (es : List Edge) :
    ∀ fuel i proc x, x ∈ pruneWalk es fuel i proc → x ∈ proc ∨ ReachBack es i x := by
  intro fuel
  induction fuel with
  | zero => intro i proc x hx; exact Or.inl hx
  | succ fuel ih =>
    intro i proc x hx
    have aux : ∀ (l : List Nat) (pr : List Nat),
        (∀ t ∈ l, ReachBack es i t) →
        (∀ y ∈ pr, y ∈ proc ∨ ReachBack es i y) →
        ∀ z ∈ l.foldl (fun pr t => if t ∈ pr then pr else pruneWalk es fuel t pr) pr,
          z ∈ proc ∨ ReachBack es i z := by
      intro l
      induction l with
      | nil => intro pr _ hpr z hz; exact hpr z hz
      | cons t l ihl =>
        intro pr hl hpr z hz
        rw [List.foldl_cons] at hz
        refine ihl _ (fun s hs => hl s (List.mem_cons_of_mem t hs)) ?_ z hz
        intro y hy
        by_cases hmem : t ∈ pr
        · rw [if_pos hmem] at hy; exact hpr y hy
        · rw [if_neg hmem] at hy
          rcases ih t pr y hy with h | h
          · exact hpr y h
          · exact Or.inr (ReachBack.trans (hl t (List.mem_cons_self t l)) h)
    have hstart : ∀ y ∈ proc ++ [i], y ∈ proc ∨ ReachBack es i y := by
      intro y hy
      rcases List.mem_append.1 hy with h | h
      · exact Or.inl h
      · rcases List.mem_singleton.1 h with rfl
        exact Or.inr ReachBack.refl
    have hnbr : ∀ t ∈ inNbrs es i, ReachBack es i t := by
      intro t ht
      rcases mem_inNbrs.1 ht with ⟨b, hb⟩
      exact ReachBack.step ReachBack.refl hb
    exact aux (inNbrs es i) (proc ++ [i]) hnbr hstart x hx

theorem nbr_lt {es : List Edge} {N : Nat} (Hsrc : ∀ e ∈ es, e.src < N) :
    ∀ j t, t ∈ inNbrs es j → t < N := by
  intro j t ht
  rcases mem_inNbrs.1 ht with ⟨b, hb⟩
  exact Hsrc _ hb

theorem pruneWalk_closed (es : List Edge) (N : Nat) (Hsrc : ∀ e ∈ es, e.src < N) :
    ∀ fuel i proc, deficit N (proc ++ [i]) < fuel →
      ∀ n ∈ pruneWalk es fuel i proc, n ∉ proc →
        ∀ m ∈ inNbrs es n, m ∈ pruneWalk es fuel i proc := by
  intro fuel
  induction fuel with
  | zero => intro i proc hfuel; exact absurd hfuel (Nat.not_lt_zero _)
  | succ fuel ih =>
    intro i proc hfuel n hn hnp m hm
    have hf : deficit N (proc ++ [i]) ≤ fuel := Nat.lt_succ_iff.1 hfuel
    simp only [pruneWalk] at hn ⊢
    have aux1 : ∀ (l2 pr : List Nat), (∀ t ∈ l2, t < N) → deficit N pr ≤ fuel →
        ∀ t ∈ l2,
          t ∈ l2.foldl (fun pr t => if t ∈ pr then pr else pruneWalk es fuel t pr) pr := by
      intro l2
      induction l2 with
      | nil => intro pr _ _ t ht; cases ht
      | cons t l2 ihl =>
        intro pr hlt hdef s hs
        rw [List.foldl_cons]
        have hstep : pr ⊆ if t ∈ pr then pr else pruneWalk es fuel t pr := by
          by_cases hmem : t ∈ pr
          · simp [hmem]
          · simpa [hmem] using pruneWalk_mono es fuel t pr
        have htpr1 : t ∈ (if t ∈ pr then pr else pruneWalk es fuel t pr) := by
          by_cases hmem : t ∈ pr
          · simp [hmem]
          · rw [if_neg hmem]
            have h1 : 1 ≤ deficit N pr := deficit_pos (hlt t (List.mem_cons_self t l2)) hmem
            cases fuel with
            | zero => omega
            | succ f => exact pruneWalk_self es f t pr
        have hdef1 : deficit N (if t ∈ pr then pr else pruneWalk es fuel t pr) ≤ fuel :=
          le_trans (deficit_anti N (fun x hx => hstep hx)) hdef
        rcases List.mem_cons.1 hs with rfl | hs2
        · exact foldl_walk_subset es fuel (fun t pr => pruneWalk_mono es fuel t pr) l2 _ htpr1
        · exact ihl _ (fun x hx => hlt x (List.mem_cons_of_mem t hx)) hdef1 s hs2
    have aux2 : ∀ (l2 pr : List Nat), (∀ t ∈ l2, t < N) → deficit N pr ≤ fuel →
        ∀ z, z ∈ l2.foldl (fun pr t => if t ∈ pr then pr else pruneWalk es fuel t pr) pr →
          z ∉ pr → ∀ m2 ∈ inNbrs es z,
            m2 ∈ l2.foldl (fun pr t => if t ∈ pr then pr else pruneWalk es fuel t pr) pr := by
      intro l2
      induction l2 with
      | nil => intro pr _ _ z hz hzp; exact absurd hz hzp
      | cons t l2 ihl =>
        intro pr hlt hdef z hz hzp m2 hm2
        rw [List.foldl_cons] at hz ⊢
        by_cases hmem : t ∈ pr
        · rw [if_pos hmem] at hz ⊢
          exact ihl pr (fun x hx => hlt x (List.mem_cons_of_mem t hx)) hdef z hz hzp m2 hm2
        · rw [if_neg hmem] at hz ⊢
          have ht : t < N := hlt t (List.mem_cons_self t l2)
          have hdefpr1 : deficit N (pruneWalk es fuel t pr) ≤ fuel :=
            le_trans (deficit_anti N (fun x hx => pruneWalk_mono es fuel t pr hx)) hdef
          by_cases hz1 : z ∈ pruneWalk es fuel t pr
          · have hdt : deficit N (pr ++ [t]) < fuel := by
              have := deficit_push ht hmem
              omega
            have hcl := ih t pr hdt z hz1 hzp m2 hm2
            exact foldl_walk_subset es fuel (fun t pr => pruneWalk_mono es fuel t pr) l2 _ hcl
          · exact ihl _ (fun x hx => hlt x (List.mem_cons_of_mem t hx)) hdefpr1 z hz hz1 m2 hm2
    by_cases hni : n = i
    · subst hni
      exact aux1 (inNbrs es n) (proc ++ [n]) (fun t ht => nbr_lt Hsrc n t ht) hf m hm
    · have hnp0 : n ∉ proc ++ [i] := by
        intro hmem
        rcases List.mem_append.1 hmem with h | h
        · exact hnp h
        · exact hni (List.mem_singleton.1 h)
      exact aux2 (inNbrs es i) (proc ++ [i]) (fun t ht => nbr_lt Hsrc i t ht) hf n hn hnp0 m hm

theorem foldl_retain_subset (es : List Edge) (fuel : Nat) :
    ∀ (acts pr : List Nat), pr ⊆ acts.foldl (fun pr a => pruneWalk es fuel a pr) pr := by
  intro acts
  induction acts with
  | nil => intro pr; simp
  | cons a acts ih =>
    intro pr
    rw [List.foldl_cons]
    exact List.Subset.trans (pruneWalk_mono es fuel a pr) (ih _)

theorem retain_mem_act (es : List Edge) (fuel : Nat) :
    ∀ (acts pr : List Nat) (a : Nat), a ∈ acts →
      a ∈ acts.foldl (fun pr a => pruneWalk es (fuel + 1) a pr) pr := by
  intro acts
  induction acts with
  | nil => intro pr a h; cases h
  | cons b acts ih =>
    intro pr a ha
    rw [List.foldl_cons]
    rcases List.mem_cons.1 ha with rfl | ha2
    · exact foldl_retain_subset es (fuel + 1) acts _ (pruneWalk_self es fuel a pr)
    · exact ih _ a ha2

theorem retain_sound (es : List Edge) (fuel : Nat) (acts0 : List Nat) :
    ∀ (acts pr : List Nat),
      (∀ t ∈ acts, t ∈ acts0) →
      (∀ y ∈ pr, ∃ a, a ∈ acts0 ∧ ReachBack es a y) →
      ∀ x ∈ acts.foldl (fun pr a => pruneWalk es fuel a pr) pr,
        ∃ a, a ∈ acts0 ∧ ReachBack es a x := by
  intro acts
  induction acts with
  | nil => intro pr _ hpr x hx; exact hpr x hx
  | cons b acts ih =>
    intro pr hsub hpr x hx
    rw [List.foldl_cons] at hx
    refine ih _ (fun t ht => hsub t (List.mem_cons_of_mem b ht)) ?_ x hx
    intro y hy
    rcases pruneWalk_sound es fuel b pr y hy with h | h
    · exact hpr y h
    · exact ⟨b, hsub b (List.mem_cons_self b acts), h⟩

theorem retain_closed (es : List Edge) (N : Nat) (Hsrc : ∀ e ∈ es, e.src < N) :
    ∀ (acts pr : List Nat),
      (∀ n ∈ pr, ∀ m ∈ inNbrs es n, m ∈ pr) →
      ∀ n ∈ acts.foldl (fun pr a => pruneWalk es (N + 1) a pr) pr,
        ∀ m ∈ inNbrs es n,
          m ∈ acts.foldl (fun pr a => pruneWalk es (N + 1) a pr) pr := by
  intro acts
  induction acts with
  | nil => intro pr hcl n hn m hm; exact hcl n hn m hm
  | cons b acts ih =>
    intro pr hcl n hn m hm
    rw [List.foldl_cons] at hn ⊢
    refine ih _ ?_ n hn m hm
    intro z hz m2 hm2
    by_cases hzp : z ∈ pr
    · exact pruneWalk_mono es (N + 1) b pr (hcl z hzp m2 hm2)
    · refine pruneWalk_closed es N Hsrc (N + 1) b pr ?_ z hz hzp m2 hm2
      exact Nat.lt_succ_of_le (deficit_le N (pr ++ [b]))

/-- Every member of the accumulated retain set is backward-reachable from an
Action node. -/
theorem retainSet_sound {genome : List Nat} {x : Nat} (hx : x ∈ retainSet genome) :
    ∃ a, a ∈ actionIdxs genome ∧ ReachBack (prunedEdges genome) a x := by
  refine retain_sound (prunedEdges genome) ((parsedNodes genome).length + 1)
    (actionIdxs genome) (actionIdxs genome) [] (fun t ht => ht) ?_ x hx
  intro y hy
  cases hy

/-- Every Action node is in the retain set (its own walk pushes it). -/
theorem retainSet_act {genome : List Nat} {a : Nat} (ha : a ∈ actionIdxs genome) :
    a ∈ retainSet genome :=
  retain_mem_act (prunedEdges genome) (parsedNodes genome).length (actionIdxs genome) [] a ha

/-- The retain set is closed under incoming neighbors. -/
theorem retainSet_closed {genome : List Nat}
    (Hsrc : ∀ e ∈ prunedEdges genome, e.src < (parsedNodes genome).length)
    {n m : Nat} (hn : n ∈ retainSet genome) (hm : m ∈ inNbrs (prunedEdges genome) n) :
    m ∈ retainSet genome := by
  refine retain_closed (prunedEdges genome) (parsedNodes genome).length Hsrc
    (actionIdxs genome) [] ?_ n hn m hm
  intro z hz
  cases hz

theorem build_eq_none_iff {genome : List Nat} :
    build genome = none ↔
      (parsedNodes genome).length = 0 ∧ 2 ≤ (parsedConns genome).length := by
  unfold build
  split
  · simp_all
  · simp_all

theorem build_eq_some {genome : List Nat} {br : Brain} (h : build genome = some br) :
    br.nodes = parsedNodes genome ∧ br.edges = finalEdges genome ∧
      br.alive = aliveIdxs genome := by
  unfold build at h
  split at h
  · cases h
  · cases h
    exact ⟨rfl, rfl, rfl⟩

theorem build_guard {genome : List Nat} {br : Brain} (h : build genome = some br) :
    ¬((parsedNodes genome).length = 0 ∧ 2 ≤ (parsedConns genome).length) := by
  intro hg
  rw [build_eq_none_iff.2 hg] at h
  cases h

theorem rawEdges_lt {conns : List (Nat × Bool)} {n : Nat} (hn : n ≠ 0) :
    ∀ e ∈ rawEdges conns n, e.src < n ∧ e.tgt < n := by
  intro e he
  rcases List.mem_map.1 he with ⟨i, _, rfl⟩
  exact ⟨Nat.mod_lt _ (Nat.pos_of_ne_zero hn), Nat.mod_lt _ (Nat.pos_of_ne_zero hn)⟩

theorem mem_prunedEdges {genome : List Nat} {e : Edge} (he : e ∈ prunedEdges genome) :
    e ∈ rawEdges (parsedConns genome) (parsedNodes genome).length ∧
      (nodeAtL (parsedNodes genome) e.tgt).isSense = false ∧
      (nodeAtL (parsedNodes genome) e.src).isAct = false := by
  rcases List.mem_filter.1 he with ⟨hraw, hcond⟩
  rw [Bool.and_eq_true, Bool.not_eq_true', Bool.not_eq_true'] at hcond
  exact ⟨hraw, hcond.1, hcond.2⟩

theorem prunedEdges_lt {genome : List Nat}
    (hguard : ¬((parsedNodes genome).length = 0 ∧ 2 ≤ (parsedConns genome).length)) :
    ∀ e ∈ prunedEdges genome,
      e.src < (parsedNodes genome).length ∧ e.tgt < (parsedNodes genome).length := by
  intro e he
  have hraw := (mem_prunedEdges he).1
  by_cases hz : (parsedNodes genome).length = 0
  · exfalso
    have hlen : (parsedConns genome).length < 2 := by
      by_contra hc
      exact hguard ⟨hz, Nat.le_of_not_lt hc⟩
    have : (parsedConns genome).length / 2 = 0 := Nat.div_eq_of_lt hlen
    unfold rawEdges at hraw
    rw [this] at hraw
    simp at hraw
  · exact rawEdges_lt hz e hraw

theorem mem_actionIdxs {genome : List Nat} {i : Nat} :
    i ∈ actionIdxs genome ↔
      i < (parsedNodes genome).length ∧ (nodeAtL (parsedNodes genome) i).isAct = true := by
  unfold actionIdxs
  rw [List.mem_filter, List.mem_range]

theorem mem_aliveIdxs {genome : List Nat} {i : Nat} :
    i ∈ aliveIdxs genome ↔
      i < (parsedNodes genome).length ∧ i ∈ retainSet genome ∧
        ((nodeAtL (parsedNodes genome) i).isAct = true →
          inDeg (prunedEdges genome) i ≠ 0) := by
  unfold aliveIdxs
  rw [List.mem_filter, List.mem_range]
  constructor
  · rintro ⟨hlt, hcond⟩
    rw [Bool.and_eq_true, decide_eq_true_iff, Bool.or_eq_true, Bool.not_eq_true'] at hcond
    refine ⟨hlt, hcond.1, ?_⟩
    intro hact
    rcases hcond.2 with h | h
    · rw [hact] at h; cases h
    · simpa using h
  · rintro ⟨hlt, hret, himp⟩
    refine ⟨hlt, ?_⟩
    rw [Bool.and_eq_true, decide_eq_true_iff, Bool.or_eq_true, Bool.not_eq_true']
    refine ⟨hret, ?_⟩
    by_cases hact : (nodeAtL (parsedNodes genome) i).isAct = true
    · right; simpa using himp hact
    · left; simpa using hact

theorem mem_finalEdges {genome : List Nat} {e : Edge} :
    e ∈ finalEdges genome ↔
      e ∈ prunedEdges genome ∧ e.src ∈ aliveIdxs genome ∧ e.tgt ∈ aliveIdxs genome := by
  unfold finalEdges
  rw [List.mem_filter]
  simp

theorem edge_eta {e : Edge} : (⟨e.src, e.tgt, e.inv⟩ : Edge) = e := by
  cases e
  rfl

theorem reach_to_edge {es : List Edge} {a x : Nat} (h : ReachBack es a x) :
    x = a ∨ ∃ e, e ∈ es ∧ e.src = x := by
  cases h with
  | refl => exact Or.inl rfl
  | step _ he => exact Or.inr ⟨_, he, rfl⟩

theorem reach_first_edge {es : List Edge} {a x : Nat} (h : ReachBack es a x) :
    x = a ∨ ∃ e, e ∈ es ∧ e.tgt = a := by
  induction h with
  | refl => exact Or.inl rfl
  | step _ he ih =>
    rcases ih with rfl | h2
    · exact Or.inr ⟨_, he, rfl⟩
    · exact Or.inr h2

/-- A backward-reachability path out of a pruned-surviving Action node only
visits surviving nodes, so it also exists in the final edge set. -/
theorem reach_upgrade {genome : List Nat}
    (hguard : ¬((parsedNodes genome).length = 0 ∧ 2 ≤ (parsedConns genome).length))
    {a : Nat} (haAlive : a ∈ aliveIdxs genome) :
    ∀ x, ReachBack (prunedEdges genome) a x →
      x ∈ retainSet genome ∧ x ∈ aliveIdxs genome ∧
        ReachBack (finalEdges genome) a x := by
  have Hsrc : ∀ e ∈ prunedEdges genome, e.src < (parsedNodes genome).length :=
    fun e he => (prunedEdges_lt hguard e he).1
  intro x hx
  induction hx with
  | refl => exact ⟨(mem_aliveIdxs.1 haAlive).2.1, haAlive, ReachBack.refl⟩
  | step rb he ih =>
    rename_i x2 y2 b2
    rcases ih with ⟨hxr, hxa, hxe⟩
    have hyr : y2 ∈ retainSet genome :=
      retainSet_closed Hsrc hxr (mem_inNbrs.2 ⟨b2, he⟩)
    have hylt : y2 < (parsedNodes genome).length :=
      (prunedEdges_lt hguard _ he).1
    have hyact : (nodeAtL (parsedNodes genome) y2).isAct = false :=
      (mem_prunedEdges he).2.2
    have hya : y2 ∈ aliveIdxs genome := by
      refine mem_aliveIdxs.2 ⟨hylt, hyr, ?_⟩
      intro hact
      rw [hyact] at hact
      cases hact
    have he2 : (⟨y2, x2, b2⟩ : Edge) ∈ finalEdges genome :=
      mem_finalEdges.2 ⟨he, hya, hxa⟩
    exact ⟨hyr, hya, ReachBack.step hxe he2⟩

/-- C2: for every genome on which brain construction succeeds, every
surviving Sense node has zero incoming edges; every surviving Action node
has zero outgoing edges and at least one incoming edge; and every surviving
node is backward-reachable (via incoming edges) from some surviving Action
node. -/
theorem c2_pruning_invariant :
    ∀ (genome : List Nat) (br : Brain), build genome = some br →
      (∀ i ∈ br.alive, (nodeAtL br.nodes i).isSense = true → inDeg br.edges i = 0) ∧
      (∀ i ∈ br.alive, (nodeAtL br.nodes i).isAct = true →
        outDeg br.edges i = 0 ∧ inDeg br.edges i ≠ 0) ∧
      (∀ i ∈ br.alive, ∃ a, a ∈ br.alive ∧ (nodeAtL br.nodes a).isAct = true ∧
        ReachBack br.edges a i) := by
  intro genome br h
  have hguard := build_guard h
  obtain ⟨hn, he, ha⟩ := build_eq_some h
  cases br with
  | mk ns es al =>
    simp only at hn he ha
    subst hn; subst he; subst ha
    refine ⟨?_, ?_, ?_⟩
    · -- Sense nodes have no incoming edges
      intro i _ hsense
      by_contra h0
      rcases inDeg_ne_zero_iff.1 h0 with ⟨e, he2, htgt⟩
      have hp := (mem_finalEdges.1 he2).1
      have hts := (mem_prunedEdges hp).2.1
      rw [htgt, hsense] at hts
      cases hts
    · -- Action nodes: sink-only, with at least one incoming edge
      intro i hi hact
      constructor
      · by_contra h0
        rcases outDeg_ne_zero_iff.1 h0 with ⟨e, he2, hsrc⟩
        have hp := (mem_finalEdges.1 he2).1
        have hsa := (mem_prunedEdges hp).2.2
        rw [hsrc, hact] at hsa
        cases hsa
      · rcases mem_aliveIdxs.1 hi with ⟨_, hret, himp⟩
        rcases inDeg_ne_zero_iff.1 (himp hact) with ⟨e, hee, htgt⟩
        have hsrclt := (prunedEdges_lt hguard e hee).1
        have hsrcact := (mem_prunedEdges hee).2.2
        have heeq : (⟨e.src, i, e.inv⟩ : Edge) = e := by
          rw [← htgt]
        have hsrcret : e.src ∈ retainSet genome :=
          retainSet_closed (fun e2 he2 => (prunedEdges_lt hguard e2 he2).1) hret
            (mem_inNbrs.2 ⟨e.inv, heeq ▸ hee⟩)
        have hsrcalive : e.src ∈ aliveIdxs genome := by
          refine mem_aliveIdxs.2 ⟨hsrclt, hsrcret, ?_⟩
          intro hc
          rw [hsrcact] at hc
          cases hc
        have he2 : e ∈ finalEdges genome :=
          mem_finalEdges.2 ⟨hee, hsrcalive, htgt ▸ hi⟩
        exact inDeg_ne_zero_iff.2 ⟨e, he2, htgt⟩
    · -- every survivor is backward-reachable from a surviving Action node
      intro i hi
      have hret := (mem_aliveIdxs.1 hi).2.1
      rcases retainSet_sound hret with ⟨a, haact, hrb⟩
      by_cases hia : i = a
      · subst hia
        exact ⟨i, hi, (mem_actionIdxs.1 haact).2, ReachBack.refl⟩
      · have hindeg : inDeg (prunedEdges genome) a ≠ 0 := by
          rcases reach_first_edge hrb with h2 | ⟨e, hee, htgt⟩
          · exact absurd h2 hia
          · exact inDeg_ne_zero_iff.2 ⟨e, hee, htgt⟩
        have haalive : a ∈ aliveIdxs genome :=
          mem_aliveIdxs.2
            ⟨(mem_actionIdxs.1 haact).1, retainSet_act haact, fun _ => hindeg⟩
        obtain ⟨_, _, hrb2⟩ := reach_upgrade hguard haalive i hrb
        exact ⟨a, haalive, (mem_actionIdxs.1 haact).2, hrb2⟩

theorem getLsBits_lt (d : Nat) : ∀ bits, getLsBits d bits < 2 ^ bits := by
  intro bits
  induction bits with
  | zero => simp [getLsBits]
  | succ b ih =>
    unfold getLsBits at ih ⊢
    rw [List.range_succ, List.foldl_append]
    simp only [List.foldl_cons, List.foldl_nil]
    by_cases hb : getBit d b
    · rw [if_pos hb]
      have : (2 : Nat) ^ (b + 1) = 2 ^ b + 2 ^ b := by ring
      omega
    · rw [if_neg hb]
      have : (2 : Nat) ^ b ≤ 2 ^ (b + 1) := Nat.pow_le_pow_right (by omega) (by omega)
      omega

theorem conn_idx_lt {g idx : Nat} {inv : Bool}
    (h : Gene.parse g = .Connection idx inv) : idx < 64 := by
  unfold Gene.parse at h
  split at h
  · rw [GeneParse.Connection.injEq] at h
    rw [← h.1]
    exact getLsBits_lt _ 6
  · split at h
    · cases h
    · split at h
      · cases h
      · cases h

theorem parsedConns_lt {genome : List Nat} :
    ∀ p ∈ parsedConns genome, p.1 < 64 := by
  intro p hp
  rcases List.mem_filterMap.1 hp with ⟨g, _, hg⟩
  revert hg
  cases hparse : Gene.parse g with
  | Connection idx inv =>
    intro hg
    simp only [Option.some.injEq] at hg
    rw [← hg]
    exact conn_idx_lt hparse
  | Sense v => intro hg; cases hg
  | Action v => intro hg; cases hg
  | Internal b => intro hg; cases hg

theorem rawEdges_lt64 {conns : List (Nat × Bool)} {n : Nat}
    (hc : ∀ p ∈ conns, p.1 < 64) :
    ∀ e ∈ rawEdges conns n, e.src < 64 ∧ e.tgt < 64 := by
  have hgetD : ∀ k, (conns.getD k (0, false)).1 < 64 := by
    intro k
    by_cases hk : k < conns.length
    · rw [List.getD_eq_getElem _ _ hk]
      exact hc _ (List.getElem_mem hk)
    · rw [List.getD_eq_default _ _ (Nat.le_of_not_lt hk)]
      omega
  intro e he
  rcases List.mem_map.1 he with ⟨i, _, rfl⟩
  constructor
  · exact Nat.lt_of_le_of_lt (Nat.mod_le _ _) (hgetD (2 * i))
  · exact Nat.lt_of_le_of_lt (Nat.mod_le _ _) (hgetD (2 * i + 1))

/-- C10: connection genes carry only a six-bit index, so once more than 64
nodes exist no node with creation index 64 or above can be an edge endpoint,
and pruning removes all of them: every survivor originates from the first 64
non-Connection genes. -/
theorem c10_survivors_from_first_64 :
    ∀ (genome : List Nat) (br : Brain) (i : Nat), build genome = some br →
      64 < br.nodes.length → i ∈ br.alive → i < 64 := by
  intro genome br i h h64 hi
  obtain ⟨hn, _, ha⟩ := build_eq_some h
  rw [ha] at hi
  have hedges : ∀ e ∈ prunedEdges genome, e.src < 64 ∧ e.tgt < 64 :=
    fun e he2 => rawEdges_lt64 parsedConns_lt e (mem_prunedEdges he2).1
  by_contra h0
  have h64i : 64 ≤ i := Nat.le_of_not_lt h0
  rcases mem_aliveIdxs.1 hi with ⟨_, hret, himp⟩
  rcases retainSet_sound hret with ⟨a, haact, hrb⟩
  rcases reach_to_edge hrb with heq | ⟨e, hee, hsrc⟩
  · -- the survivor is the Action node itself, which must have an incoming edge
    have hindeg : inDeg (prunedEdges genome) i ≠ 0 := by
      refine himp ?_
      rw [heq]
      exact (mem_actionIdxs.1 haact).2
    rcases inDeg_ne_zero_iff.1 hindeg with ⟨e, hee, htgt⟩
    have := (hedges e hee).2
    omega
  · -- the survivor is the source of some surviving edge
    have := (hedges e hee).1
    omega

theorem foldM_hist {σ : Type} (proj : σ → List Nat) (f : σ → Nat → Option σ)
    (hf : ∀ st r st', f st r = some st' → ∀ x ∈ proj st, x ∈ proj st') :
    ∀ (l : List Nat) (st st2 : σ), List.foldlM f st l = some st2 →
      ∀ x ∈ proj st, x ∈ proj st2 := by
  intro l
  induction l with
  | nil =>
    intro st st2 h
    rw [List.foldlM_nil] at h
    cases h
    exact fun x hx => hx
  | cons r l ihl =>
    intro st st2 h
    rw [List.foldlM_cons] at h
    cases hg : f st r with
    | none => rw [hg] at h; cases h
    | some st1 =>
      rw [hg] at h
      exact fun x hx => ihl st1 st2 h x (hf st r st1 hg x hx)

theorem foldM_total {σ : Type} (P : σ → Prop) (f : σ → Nat → Option σ) :
    ∀ l : List Nat,
      (∀ st r, r ∈ l → P st → ∃ st', f st r = some st' ∧ P st') →
      ∀ st, P st → ∃ st2, List.foldlM f st l = some st2 ∧ P st2 := by
  intro l
  induction l with
  | nil =>
    intro _ st hst
    exact ⟨st, by rw [List.foldlM_nil]; rfl, hst⟩
  | cons r l ihl =>
    intro hstep st hst
    rcases hstep st r (List.mem_cons_self r l) hst with ⟨st1, hf1, hp1⟩
    rcases ihl (fun st r' hr' => hstep st r' (List.mem_cons_of_mem _ hr')) st1 hp1 with
      ⟨st2, hf2, hp2⟩
    refine ⟨st2, ?_, hp2⟩
    rw [List.foldlM_cons, hf1]
    exact hf2

theorem combine_hist (edge : Option Bool) (st : Nat × ℚ × List Nat)
    (pr : Option ℚ × List Nat) : (combine edge st pr).2.2 = pr.2 := by
  rcases pr with ⟨pr1, pr2⟩
  cases pr1 <;> rfl

/-- The neighbor fold only ever extends the threaded history. -/
theorem foldNbrs_hist {f : Nat → List Nat → Option (Option ℚ × List Nat)}
    (hf : ∀ r h res h2, f r h = some (res, h2) → ∀ x ∈ h, x ∈ h2) :
    ∀ (nbrs : List Nat) (edge : Option Bool) (init st2 : Nat × ℚ × List Nat),
      foldNbrs nbrs edge f init = some st2 → ∀ x ∈ init.2.2, x ∈ st2.2.2 := by
  intro nbrs edge init st2 h
  refine foldM_hist (fun st : Nat × ℚ × List Nat => st.2.2) _ ?_ nbrs init st2 h
  intro st r st' hstep x hx
  rcases Option.map_eq_some'.1 hstep with ⟨pr, hp, hc⟩
  show x ∈ st'.2.2
  rw [← hc, combine_hist]
  exact hf r st.2.2 pr.1 pr.2 (by rw [hp]) x hx

/-- The neighbor fold terminates whenever the recursive resolver does on
histories extending the base. -/
theorem foldNbrs_total {f : Nat → List Nat → Option (Option ℚ × List Nat)}
    {N : Nat} {base : List Nat}
    (hfT : ∀ r h, r < N → (∀ x ∈ base, x ∈ h) → ∃ res, f r h = some res)
    (hfH : ∀ r h res h2, f r h = some (res, h2) → ∀ x ∈ h, x ∈ h2)
    (nbrs : List Nat) (hn : ∀ r ∈ nbrs, r < N) (edge : Option Bool)
    (init : Nat × ℚ × List Nat) (hinit : ∀ x ∈ base, x ∈ init.2.2) :
    ∃ st2, foldNbrs nbrs edge f init = some st2 := by
  have h := foldM_total (fun st : Nat × ℚ × List Nat => ∀ x ∈ base, x ∈ st.2.2)
    (fun st r => (f r st.2.2).map (combine edge st)) nbrs ?_ init hinit
  · rcases h with ⟨st2, hfold, _⟩
    exact ⟨st2, hfold⟩
  · intro st r hr hst
    rcases hfT r st.2.2 (hn r hr) hst with ⟨res, hres⟩
    refine ⟨combine edge st res, ?_, ?_⟩
    · show Option.map (combine edge st) (f r st.2.2) = some (combine edge st res)
      rw [hres]
      rfl
    · intro x hx
      show x ∈ (combine edge st res).2.2
      rw [combine_hist]
      exact hfH r st.2.2 res.1 res.2 (by rw [hres]) x (hst x hx)

/-- A successful `process_node` call only appends to the history it was
given (the Rust `&mut Vec` is never truncated). -/
theorem processNodeF_hist (br : Brain) (sense : SenseType → ℚ) :
    ∀ fuel i hist res h2,
      processNodeF br sense fuel i hist = some (res, h2) → ∀ x ∈ hist, x ∈ h2 := by
  intro fuel
  induction fuel with
  | zero =>
    intro i hist res h2 h
    simp [processNodeF] at h
  | succ fuel ih =>
    intro i hist res h2 h
    cases hnode : nodeAtL br.nodes i with
    | Sense v =>
      simp only [processNodeF, hnode] at h
      cases h
      exact fun x hx => hx
    | Internal b =>
      simp only [processNodeF, hnode] at h
      by_cases hmem : i ∈ hist
      · rw [if_pos hmem] at h
        cases h
        exact fun x hx => hx
      · rw [if_neg hmem] at h
        split at h
        · cases h
        · rename_i fst h2x heq
          cases h
          intro x hx
          exact foldNbrs_hist (fun r hh res2 h22 hc => ih r hh res2 h22 hc)
            _ _ _ _ heq x (List.mem_append.2 (Or.inl hx))
        · rename_i c sum h2x heq
          cases h
          intro x hx
          exact foldNbrs_hist (fun r hh res2 h22 hc => ih r hh res2 h22 hc)
            _ _ _ _ heq x (List.mem_append.2 (Or.inl hx))
    | Action a =>
      simp only [processNodeF, hnode] at h
      by_cases hmem : i ∈ hist
      · rw [if_pos hmem] at h
        cases h
        exact fun x hx => hx
      · rw [if_neg hmem] at h
        split at h
        · cases h
        · rename_i fst h2x heq
          cases h
          intro x hx
          exact foldNbrs_hist (fun r hh res2 h22 hc => ih r hh res2 h22 hc)
            _ _ _ _ heq x (List.mem_append.2 (Or.inl hx))
        · rename_i c sum h2x heq
          cases h
          intro x hx
          exact foldNbrs_hist (fun r hh res2 h22 hc => ih r hh res2 h22 hc)
            _ _ _ _ heq x (List.mem_append.2 (Or.inl hx))


/-- With more fuel than there are unvisited node indices, `process_node`
never exhausts it: the guarded push makes each recursion level consume a
fresh index below the node count. -/
theorem processNodeF_total (br : Brain) (sense : SenseType → ℚ)
    (Hsrc : ∀ e ∈ br.edges, e.src < br.nodes.length) :
    ∀ fuel i hist, i < br.nodes.length →
      deficit br.nodes.length hist < fuel →
      ∃ res, processNodeF br sense fuel i hist = some res := by
  intro fuel
  induction fuel with
  | zero => intro i hist _ hd; exact absurd hd (Nat.not_lt_zero _)
  | succ fuel ih =>
    intro i hist hi hd
    cases hnode : nodeAtL br.nodes i with
    | Sense v =>
      exact ⟨(some (sense v), hist), by simp [processNodeF, hnode]⟩
    | Internal b =>
      by_cases hmem : i ∈ hist
      · exact ⟨((some b : Option ℚ), hist), by simp [processNodeF, hnode, hmem]⟩
      · have hdef1 : deficit br.nodes.length (hist ++ [i]) < fuel := by
          have := deficit_push hi hmem
          omega
        have hfT : ∀ r h, r < br.nodes.length → (∀ x ∈ hist ++ [i], x ∈ h) →
            ∃ res, processNodeF br sense fuel r h = some res := by
          intro r h hr hsup
          exact ih r h hr (Nat.lt_of_le_of_lt (deficit_anti _ hsup) hdef1)
        obtain ⟨st2, hfold⟩ := foldNbrs_total hfT
          (fun r hh res2 h22 hc => processNodeF_hist br sense fuel r hh res2 h22 hc)
          (inNbrs br.edges i) (fun r hr => nbr_lt Hsrc i r hr)
          (hist.getLast?.bind (fun t =>
            (br.edges.find? (fun e => e.src == i && e.tgt == t)).map (fun e => e.inv)))
          (0, (0 : ℚ), hist ++ [i]) (fun x hx => hx)
        simp only [processNodeF, hnode]
        rw [if_neg hmem, hfold]
        rcases st2 with ⟨c, sum, h2x⟩
        cases c with
        | zero => exact ⟨_, rfl⟩
        | succ c => exact ⟨_, rfl⟩
    | Action a =>
      by_cases hmem : i ∈ hist
      · exact ⟨((none : Option ℚ), hist), by simp [processNodeF, hnode, hmem]⟩
      · have hdef1 : deficit br.nodes.length (hist ++ [i]) < fuel := by
          have := deficit_push hi hmem
          omega
        have hfT : ∀ r h, r < br.nodes.length → (∀ x ∈ hist ++ [i], x ∈ h) →
            ∃ res, processNodeF br sense fuel r h = some res := by
          intro r h hr hsup
          exact ih r h hr (Nat.lt_of_le_of_lt (deficit_anti _ hsup) hdef1)
        obtain ⟨st2, hfold⟩ := foldNbrs_total hfT
          (fun r hh res2 h22 hc => processNodeF_hist br sense fuel r hh res2 h22 hc)
          (inNbrs br.edges i) (fun r hr => nbr_lt Hsrc i r hr)
          (hist.getLast?.bind (fun t =>
            (br.edges.find? (fun e => e.src == i && e.tgt == t)).map (fun e => e.inv)))
          (0, (0 : ℚ), hist ++ [i]) (fun x hx => hx)
        simp only [processNodeF, hnode]
        rw [if_neg hmem, hfold]
        rcases st2 with ⟨c, sum, h2x⟩
        cases c with
        | zero => exact ⟨_, rfl⟩
        | succ c => exact ⟨_, rfl⟩


theorem evaluateT_total (br : Brain) (hwf : WFBrain br) (sense : SenseType → ℚ) :
    ∃ d, evaluateT br sense = some d := by
  have hstep : ∀ (dom : Option (ActionType × ℚ)) (i : Nat), i ∈ br.alive → True →
      ∃ st', (if outDeg br.edges i = 0 then
        match nodeAtL br.nodes i with
        | Node.Action v =>
          (processNodeF br sense (br.nodes.length + 1) i []).map (fun pr =>
            match pr.1 with
            | some w =>
              match dom with
              | some (hv, hw) => if w > hw then some (v, w) else some (hv, hw)
              | none => some (v, w)
            | none => dom)
        | _ => some dom
      else some dom) = some st' ∧ True := by
    intro dom i hi _
    by_cases ho : outDeg br.edges i = 0
    · rw [if_pos ho]
      cases hnode : nodeAtL br.nodes i with
      | Action v =>
        simp only [hnode]
        obtain ⟨res, hres⟩ := processNodeF_total br sense
          (fun e he => (hwf.1 e he).1) (br.nodes.length + 1) i [] (hwf.2 i hi)
          (Nat.lt_succ_of_le (deficit_le br.nodes.length []))
        refine ⟨(fun pr : Option ℚ × List Nat =>
            match pr.1 with
            | some w =>
              match dom with
              | some (hv, hw) => if w > hw then some (v, w) else some (hv, hw)
              | none => some (v, w)
            | none => dom) res, ?_, trivial⟩
        rw [hres]
        rfl
      | Sense v => simp only [hnode]; exact ⟨dom, rfl, trivial⟩
      | Internal b => simp only [hnode]; exact ⟨dom, rfl, trivial⟩
    · rw [if_neg ho]
      exact ⟨dom, rfl, trivial⟩
  obtain ⟨d, hd, _⟩ := foldM_total (fun _ : Option (ActionType × ℚ) => True)
    (fun dom i =>
      if outDeg br.edges i = 0 then
        match nodeAtL br.nodes i with
        | Node.Action v =>
          (processNodeF br sense (br.nodes.length + 1) i []).map (fun pr =>
            match pr.1 with
            | some w =>
              match dom with
              | some (hv, hw) => if w > hw then some (v, w) else some (hv, hw)
              | none => some (v, w)
            | none => dom)
        | _ => some dom
      else some dom)
    br.alive hstep none trivial
  exact ⟨d, hd⟩


section
set_option allowUnsafeReducibility true
set_option maxRecDepth 8192
attribute [local semireducible] Rat.mul Rat.add Rat.div Rat.inv Rat.sub Rat.neg

/-- C1 (code bug): the resolver applies the looked-up parent edge's inversion
flag backwards.  With the Internal→Action edge carrying `inverted = false`,
the Sense contribution is multiplied by `-1` and the Action resolves to
weight `-1`; with `inverted = true` it passes through unchanged (weight `1`).
The claim (and the glossary's definition of an inverted edge) requires
negation exactly when the flag is set, so the code computes the opposite
sign on both inputs: `applyInv` multiplies by `1` for a set flag and by `-1`
for a clear one. -/
theorem c1_inversion_applied_to_clear_flag :
    build gC1False = some brC1False ∧
    build gC1True = some brC1True ∧
    processNodeF brC1False senseOne 4 2 [] = some (some (-1), [2, 1]) ∧
    processNodeF brC1True senseOne 4 2 [] = some (some 1, [2, 1]) ∧
    process brC1False senseOne = some ActionType.Move ∧
    applyInv (some false) 1 = -1 ∧
    applyInv (some true) 1 = 1 := by decide

/-- C5 counterexample: the quoted genome's first gene `01000001` (= 65) has
bit 6 set, so it decodes to Internal(1/32), not Sense[1 mod 6]; likewise
`11100000` (= 224) decodes to a Connection, not Action[0 mod 5]. -/
theorem c5_counterexample_decode :
    Gene.parse 65 ≠ GeneParse.Sense SenseType.Agent ∧
    Gene.parse 224 ≠ GeneParse.Action ActionType.Move ∧
    Gene.parse 65 = GeneParse.Internal (1 / 32) ∧
    Gene.parse 224 = GeneParse.Connection 32 true := by decide

/-- C5 (amended): what the genome `01000001 11100000 10000000 10000001`
actually does: it decodes to (Internal(1/32), Connection(32, inverted),
Connection(0, plain), Connection(1, plain)); the single complete connection
pair wires a self-loop on the lone Internal node, pruning removes every
node (there is no Action node), and evaluation with the 0.7 sense function
returns no action. -/
theorem c5_scenario_actual :
    Gene.parse 65 = GeneParse.Internal (1 / 32) ∧
    Gene.parse 224 = GeneParse.Connection 32 true ∧
    Gene.parse 128 = GeneParse.Connection 0 false ∧
    Gene.parse 129 = GeneParse.Connection 1 false ∧
    build gC5 = some brC5 ∧
    brC5.alive = [] ∧
    process brC5 (fun _ => 7 / 10) = none := by decide

/-- C6: gene decoding is total (a Lean function) and follows the priority
bit layout, shown by agreement with `specGeneDecode`, the layout transcribed
from the specification in plain modular arithmetic, on all 256 byte
values. -/
theorem c6_decode_total_layout :
    ∀ b : Fin 256, Gene.parse b.val = specGeneDecode b.val := by decide

/-- C7: for every byte value, formatting as 8-character binary text and
parsing back yields the original gene. -/
theorem c7_text_roundtrip :
    ∀ b : Fin 256, Gene.fromString (Gene.toBin b.val) = some b.val := by decide

/-- C8 counterexample: `"101"` is not an 8-character binary string yet
decodes successfully (to 5), and the genome parser silently drops the
unparsable token `"abc"` instead of propagating an error. -/
theorem c8_length_not_checked_and_errors_dropped :
    Gene.fromString ('1' :: '0' :: '1' :: []) = some 5 ∧
    Genome.fromString ("10000000 abc".toList) = [128] := by decide

/-- C9 counterexample: with the structural coin choosing removal, mutating
the empty genome fails (`gen_range(0..0)` panics in the source). -/
theorem c9_empty_removal_fails :
    Genome.mutateStructural [] false 0 0 = none := by decide

end

section
set_option allowUnsafeReducibility true
set_option maxRecDepth 8192
attribute [local semireducible] Rat.mul Rat.add Rat.div Rat.inv Rat.sub Rat.neg

/-- C3: on every well-formed finite brain graph (cycles and self-loops
included) and every sense-lookup, evaluation terminates — with fuel
`node count + 1` the fuelled evaluator always returns a value, because a
node already in the history is never expanded again; and a revisited
Internal node contributes its stored bias as a constant. -/
theorem c3_evaluation_terminates :
    (∀ br : Brain, WFBrain br → ∀ sense : SenseType → ℚ,
      ∃ d, evaluateT br sense = some d) ∧
    (∀ (br : Brain) (sense : SenseType → ℚ) (fuel i : Nat) (hist : List Nat)
        (b : ℚ), i ∈ hist → nodeAtL br.nodes i = Node.Internal b →
      processNodeF br sense (fuel + 1) i hist = some (some b, hist)) := by
  constructor
  · exact fun br hwf sense => evaluateT_total br hwf sense
  · intro br sense fuel i hist b hmem hnode
    simp [processNodeF, hnode, hmem]

/-- C3 witness: the self-loop brain built from `gC3` evaluates to a result,
and its revisited self-referential Internal node yields its bias 1. -/
theorem c3_evaluation_terminates_witness :
    (∃ d, evaluateT brC3 senseOne = some d) ∧
    processNodeF brC3 senseOne 1 0 [0] = some (some 1, [0]) :=
  ⟨c3_evaluation_terminates.1 brC3 (by decide) senseOne,
   c3_evaluation_terminates.2 brC3 senseOne 0 0 [0] 1 (by decide) (by decide)⟩

/-- C2 witness: the pruning invariant, instantiated on the two-node brain
built from `gC2`. -/
theorem c2_pruning_invariant_witness :
    (∀ i ∈ brC2.alive, (nodeAtL brC2.nodes i).isSense = true →
      inDeg brC2.edges i = 0) ∧
    (∀ i ∈ brC2.alive, (nodeAtL brC2.nodes i).isAct = true →
      outDeg brC2.edges i = 0 ∧ inDeg brC2.edges i ≠ 0) ∧
    (∀ i ∈ brC2.alive, ∃ a, a ∈ brC2.alive ∧
      (nodeAtL brC2.nodes a).isAct = true ∧ ReachBack brC2.edges a i) :=
  c2_pruning_invariant gC2 brC2 (by decide)

/-- C10 witness: on the 65-node genome `gC10`, the surviving Action node
(index 1) indeed lies below 64. -/
theorem c10_survivors_from_first_64_witness : (1 : Nat) < 64 :=
  c10_survivors_from_first_64 gC10 brC10 1 (by decide) (by decide) (by decide)

end

theorem filterMap_length_countP {α β : Type} (f : α → Option β) :
    ∀ l : List α, (l.filterMap f).length = l.countP (fun a => (f a).isSome) := by
  intro l
  induction l with
  | nil => rfl
  | cons a l ih =>
    rw [List.filterMap_cons, List.countP_cons]
    cases hf : f a with
    | none => simp [hf, ih]
    | some b => simp [hf, ih]

/-- The node count is the number of non-Connection genes. -/
theorem parsedNodes_length (genome : List Nat) :
    (parsedNodes genome).length =
      genome.countP (fun g => !(Gene.parse g).isConn) := by
  unfold parsedNodes
  rw [filterMap_length_countP]
  refine List.countP_congr ?_
  intro g _
  cases hp : Gene.parse g <;> simp [hp, GeneParse.isConn]

/-- The connection side-list length is the number of Connection genes. -/
theorem parsedConns_length (genome : List Nat) :
    (parsedConns genome).length =
      genome.countP (fun g => (Gene.parse g).isConn) := by
  unfold parsedConns
  rw [filterMap_length_countP]
  refine List.countP_congr ?_
  intro g _
  cases hp : Gene.parse g <;> simp [hp, GeneParse.isConn]

/-- C4: brain construction fails exactly when the genome has zero
non-Connection genes (so no nodes) while containing at least one complete
pair of Connection genes; in particular a complete-pair-only genome fails
and a genome without a complete pair never fails. -/
theorem c4_build_fails_iff :
    ∀ genome : List Nat,
      build genome = none ↔
        (genome.countP (fun g => !(Gene.parse g).isConn) = 0 ∧
          2 ≤ genome.countP (fun g => (Gene.parse g).isConn)) := by
  intro genome
  rw [build_eq_none_iff, parsedNodes_length, parsedConns_length]

theorem binValAux_isSome :
    ∀ (t : List Char) (acc : Nat),
      (binValAux acc t).isSome = true ↔ ∀ c ∈ t, c = '0' ∨ c = '1' := by
  intro t
  induction t with
  | nil => intro acc; simp [binValAux]
  | cons c rest ih =>
    intro acc
    by_cases h0 : c = '0'
    · simp [binValAux, binDigit, h0, ih]
    · by_cases h1 : c = '1'
      · simp [binValAux, binDigit, h0, h1, ih]
      · simp [binValAux, binDigit, h0, h1]

theorem binValAux_eq :
    ∀ (t : List Char) (acc : Nat), (∀ c ∈ t, c = '0' ∨ c = '1') →
      binValAux acc t =
        some (t.foldl (fun a c => a * 2 + (if c = '1' then 1 else 0)) acc) := by
  intro t
  induction t with
  | nil => intro acc _; rfl
  | cons c rest ih =>
    intro acc hbin
    rcases hbin c (List.mem_cons_self c rest) with h | h
    · subst h
      rw [List.foldl_cons]
      have hstep : binValAux acc ('0' :: rest) = binValAux (acc * 2) rest := by
        simp [binValAux, binDigit]
      have hacc : (acc * 2 + if ('0' : Char) = '1' then 1 else 0) = acc * 2 := by
        simp
      rw [hstep, hacc]
      exact ih _ (fun x hx => hbin x (List.mem_cons_of_mem _ hx))
    · subst h
      rw [List.foldl_cons]
      have hstep : binValAux acc ('1' :: rest) = binValAux (acc * 2 + 1) rest := by
        simp [binValAux, binDigit]
      have hacc : (acc * 2 + if ('1' : Char) = '1' then 1 else 0) = acc * 2 + 1 := by
        simp
      rw [hstep, hacc]
      exact ih _ (fun x hx => hbin x (List.mem_cons_of_mem _ hx))

theorem gene_fromString_isSome :
    ∀ s : List Char, (Gene.fromString s).isSome = true ↔ ValidBin s := by
  intro s
  unfold Gene.fromString ValidBin
  cases hs : stripPlus s with
  | nil => simp
  | cons c rest =>
    change (match binValAux 0 (c :: rest) with
      | some v => if v < 256 then some v else none
      | none => none).isSome = true ↔ _
    cases hbv : binValAux 0 (c :: rest) with
    | none =>
      simp only [Option.isSome_none]
      constructor
      · intro h; cases h
      · rintro ⟨_, hbin, _⟩
        have := binValAux_eq (c :: rest) 0 hbin
        rw [hbv] at this
        cases this
    | some v =>
      have hval : ∀ hbin : (∀ x ∈ c :: rest, x = '0' ∨ x = '1'),
          specBinVal (c :: rest) = v := by
        intro hbin
        have heq := binValAux_eq (c :: rest) 0 hbin
        rw [hbv] at heq
        unfold specBinVal
        exact Option.some.inj heq.symm
      by_cases hv : v < 256
      · simp only [if_pos hv, Option.isSome_some]
        constructor
        · intro _
          have hbin : ∀ x ∈ c :: rest, x = '0' ∨ x = '1' := by
            have hsome : (binValAux 0 (c :: rest)).isSome = true := by rw [hbv]; rfl
            exact (binValAux_isSome (c :: rest) 0).1 hsome
          exact ⟨by simp, hbin, by rw [hval hbin]; exact hv⟩
        · intro _; trivial
      · simp only [if_neg hv, Option.isSome_none]
        constructor
        · intro h; cases h
        · rintro ⟨_, hbin, hlt⟩
          rw [hval hbin] at hlt
          exact (hv hlt).elim

theorem foldl_pushGene_filterMap :
    ∀ (l : List (List Char)) (acc : List Nat),
      l.foldl pushGene acc = acc ++ l.filterMap Gene.fromString := by
  intro l
  induction l with
  | nil => intro acc; simp
  | cons a l ih =>
    intro acc
    rw [List.foldl_cons, List.filterMap_cons, ih]
    unfold pushGene
    cases hf : Gene.fromString a with
    | none => simp [hf]
    | some b => simp [hf]

/-- C8 (amended): `Gene::from_string` fails exactly when the token — after an
optional leading `+` — is empty, contains a non-binary character, or encodes
a value of 256 or more; the 8-character length itself is not checked.  And
`Genome::from_string` silently drops failing tokens instead of propagating
the error: it is the `filterMap` of the gene decoder over the split input. -/
theorem c8_text_decode_amended :
    (∀ s : List Char, (Gene.fromString s).isSome = true ↔ ValidBin s) ∧
    (∀ data : List Char,
      Genome.fromString data = (data.splitOn ' ').filterMap Gene.fromString) := by
  constructor
  · exact gene_fromString_isSome
  · intro data
    unfold Genome.fromString
    rw [foldl_pushGene_filterMap]
    rfl

/-- C9 (amended): the structural-removal branch is not guarded — structural
mutation fails exactly when removal is chosen on an empty genome (the code
calls `gen_range(0..0)`, which panics); on a nonempty genome removal always
succeeds, and appending a fresh gene always succeeds. -/
theorem c9_removal_unguarded :
    ∀ (genome : List Nat) (addNew : Bool) (fresh idx : Nat),
      Genome.mutateStructural genome addNew fresh idx = none ↔
        (addNew = false ∧ genome = []) := by
  intro genome addNew fresh idx
  unfold Genome.mutateStructural
  cases addNew
  · by_cases h : genome.length = 0
    · simp [h, List.length_eq_zero.1 h]
    · have hne : genome ≠ [] := fun hg => h (by rw [hg]; rfl)
      simp [h, hne]
  · simp


end Emergent
